import Mathlib

/-!
Verification of the ambulance-allocation planning core.

The development shallowly embeds the combinatorial and modelling machinery of
the repository: the configuration enumerator, the coverage-matrix construction
(`scripts/run_base_analysis.py`, `src/models/consistency_model.py`), and the
feasible-assignment predicates of the three optimisation formulations
(`src/models/base_model.py`, `src/models/binary_model.py`,
`src/models/consistency_model.py`).  Gurobi decision variables become explicit
assignment records; each `addConstr` call becomes a field of a Prop-valued
structure, so that "feasible assignment of the built model" is exactly an
inhabitant of that structure.  Integer variables carry Gurobi's default lower
bound of zero as explicit nonnegativity fields; binary variables carry a
zero-or-one field.
-/

namespace AmbulanceAllocation

/-! ### Configuration enumerator -/

/-- Successor zones of the current zone under the base-anchored mobility rule:
while at a base station a vehicle may stay or move to any adjacent zone; away
from a base it can only repeat its current zone. -/
def succs {α : Type} (adj : α → List α) (isBase : α → Bool) (cur : α) : List α :=
  if isBase cur then cur :: adj cur else [cur]

/-- Depth-bounded recursive branching: all feasible continuations of length
`r + 1` that start at `cur` (the current zone together with `r` further
periods). -/
def pathSuffixes {α : Type} (adj : α → List α) (isBase : α → Bool) :
    Nat → α → List (List α)
  | 0, cur => [[cur]]
  | r + 1, cur =>
      (succs adj isBase cur).flatMap fun nxt =>
        (pathSuffixes adj isBase r nxt).map (cur :: ·)

/-- Modelled from the spec: `PathGenerator.generate_base_paths` in
`src/data_processing/path_generator.py` is an explicit placeholder whose body
returns an empty list ("replace with your actual implementation"); the actual
enumerator is missing from the repository.  This definition follows §4.1 of
the specification: state is (current partial path, periods remaining); when no
periods remain the partial path is emitted; while the last zone is a base
station the recursion branches over staying and every adjacent zone, otherwise
the only successor repeats the current zone.  The enumeration is rooted at the
given base and produces configurations of length `periods`. -/
def generate_base_paths {α : Type} (adj : α → List α) (isBase : α → Bool)
    (base : α) (periods : Nat) : List (List α) :=
  match periods with
  | 0 => []
  | r + 1 => pathSuffixes adj isBase r base

/-- A feasible length-`T` configuration rooted at `base`: the position at time
0 is the base, and each step either stays at a base station or moves to one of
its neighbours, while zones away from a base can only be repeated. -/
def FeasibleConfig {α : Type} (adj : α → List α) (isBase : α → Bool)
    (base : α) (T : Nat) (p : List α) : Prop :=
  p.length = T ∧ p.head? = some base ∧
    List.Chain' (fun a b => b ∈ succs adj isBase a) p

theorem mem_pathSuffixes {α : Type} (adj : α → List α) (isBase : α → Bool) :
    ∀ (r : Nat) (cur : α) (p : List α),
      p ∈ pathSuffixes adj isBase r cur ↔
        p.length = r + 1 ∧ p.head? = some cur ∧
          List.Chain' (fun a b => b ∈ succs adj isBase a) p := by
  intro r
  induction r with
  | zero =>
      intro cur p
      constructor
      · intro h
        simp only [pathSuffixes, List.mem_singleton] at h
        subst h
        simp
      · rintro ⟨hl, hh, -⟩
        obtain ⟨a, rfl⟩ := List.length_eq_one.mp hl
        simp only [List.head?_cons, Option.some.injEq] at hh
        subst hh
        simp [pathSuffixes]
  | succ r ih =>
      intro cur p
      constructor
      · intro h
        simp only [pathSuffixes, List.mem_flatMap, List.mem_map] at h
        obtain ⟨nxt, hnxt, q, hq, rfl⟩ := h
        obtain ⟨hl, hh, hc⟩ := (ih nxt q).mp hq
        refine ⟨by simp [hl], by simp, ?_⟩
        refine List.chain'_cons'.mpr ⟨?_, hc⟩
        intro y hy
        rw [Option.mem_def, hh] at hy
        injection hy with h2
        subst h2
        exact hnxt
      · rintro ⟨hl, hh, hc⟩
        cases p with
        | nil => simp at hh
        | cons x q =>
          simp only [List.head?_cons, Option.some.injEq] at hh
          subst hh
          have hql : q.length = r + 1 := by simpa using hl
          have hqne : q ≠ [] := by
            intro h0
            subst h0
            simp at hql
          obtain ⟨hstep, hcq⟩ := List.chain'_cons'.mp hc
          obtain ⟨nxt, hnxt⟩ : ∃ nxt, q.head? = some nxt := by
            cases hq0 : q.head? with
            | none => exact absurd (List.head?_eq_none_iff.mp hq0) hqne
            | some v => exact ⟨v, rfl⟩
          have hmem : nxt ∈ succs adj isBase x := hstep nxt (by simp [hnxt])
          have hq : q ∈ pathSuffixes adj isBase r nxt :=
            (ih nxt q).mpr ⟨hql, hnxt, hcq⟩
          simp only [pathSuffixes, List.mem_flatMap, List.mem_map]
          exact ⟨nxt, hmem, q, hq, rfl⟩

/-- Scenario A adjacency: a fully connected 3-zone graph on zones `0`, `1`,
`2` (standing for A, B, C). -/
def adjA : Nat → List Nat := fun z =>
  if z = 0 then [1, 2] else if z = 1 then [0, 2] else if z = 2 then [0, 1] else []

/-- Scenario A base predicate: zone `0` (A) is the single base. -/
def isBaseA : Nat → Bool := fun z => z == 0

/-- Claim C1: the configuration enumerator is exhaustive — a list belongs to
its output exactly when it is a feasible length-`T` configuration rooted at
the given base under the base-anchored mobility rule; and on the 3-zone fully
connected graph with single base A and horizon 2 it returns exactly
`[A,A], [A,B], [A,C]`. -/
theorem generate_base_paths_exhaustive :
    (∀ (α : Type) (adj : α → List α) (isBase : α → Bool) (base : α) (T : Nat)
        (p : List α),
        p ∈ generate_base_paths adj isBase base T ↔
          FeasibleConfig adj isBase base T p)
    ∧ generate_base_paths adjA isBaseA 0 2 = [[0, 0], [0, 1], [0, 2]] := by
  constructor
  · intro α adj isBase base T p
    match T with
    | 0 =>
        simp only [generate_base_paths, List.not_mem_nil, false_iff, FeasibleConfig]
        rintro ⟨hl, hh, -⟩
        rw [List.length_eq_zero.mp hl] at hh
        simp at hh
    | Nat.succ r =>
        exact mem_pathSuffixes adj isBase r base p
  · rfl

/-! ### Coverage matrix

Embeds the dictionary construction of `scripts/run_base_analysis.py`
(lines 100–106), repeated verbatim inside
`ConsistencyModel.build_model` (lines 122–128):

    b = {}
    for c_idx, config in enumerate(configs):
        for t, zone in enumerate(config):
            coverage = {zone} | adjacency.get(zone, set())
            for z in coverage:
                b[z, t, c_idx] = 1

All stored values are `1`; consumers read `b.get((i, t, c), 0)`, so a key is
mapped to `1` exactly when it was inserted and every absent key denotes `0`. -/

/-- The keys inserted into the coverage dictionary `b`: one key
`(z, t, c_idx)` for every configuration index `c_idx`, period `t`, and zone
`z` in the covered set `{zone} ∪ adjacency(zone)` of the configuration's zone
at that period. -/
def coverageKeys {α : Type} (adj : α → List α) (configs : List (List α)) :
    List (α × Nat × Nat) :=
  configs.enum.flatMap fun ci =>
    ci.2.enum.flatMap fun tz =>
      (tz.2 :: adj tz.2).map fun z => (z, tz.1, ci.1)

/-- `b.get(key, 0)`: the coverage-matrix entry of a key, `1` when the key was
inserted and `0` otherwise. -/
def coverage_get {α : Type} [DecidableEq α] (adj : α → List α)
    (configs : List (List α)) (key : α × Nat × Nat) : Nat :=
  if key ∈ coverageKeys adj configs then 1 else 0

theorem mem_coverageKeys {α : Type} (adj : α → List α)
    (configs : List (List α)) (z : α) (t c : Nat) :
    (z, t, c) ∈ coverageKeys adj configs ↔
      ∃ cfg w, configs[c]? = some cfg ∧ cfg[t]? = some w ∧
        (z = w ∨ z ∈ adj w) := by
  unfold coverageKeys
  simp only [List.mem_flatMap, List.mem_map, List.mem_cons]
  constructor
  · rintro ⟨⟨c1, cfg⟩, hcfg, ⟨t1, w⟩, hw, z1, hz1, heq⟩
    obtain ⟨rfl, rfl, rfl⟩ : z = z1 ∧ t = t1 ∧ c = c1 := by
      simpa [Prod.ext_iff] using heq.symm
    exact ⟨cfg, w, List.mk_mem_enum_iff_getElem?.mp hcfg,
      List.mk_mem_enum_iff_getElem?.mp hw, by simpa using hz1⟩
  · rintro ⟨cfg, w, hcfg, hw, hz⟩
    exact ⟨(c, cfg), List.mk_mem_enum_iff_getElem?.mpr hcfg,
      (t, w), List.mk_mem_enum_iff_getElem?.mpr hw, z, by simpa using hz, rfl⟩

/-- Claim C2: a coverage-matrix entry `(z, t, c)` is `1` exactly when `z` is
the configuration's zone at time `t` or adjacent to it; every entry is `0` or
`1` (absent keys read as `0`); and in particular any zone adjacent to the
occupied zone is marked covered. -/
theorem coverage_matrix_entries {α : Type} [DecidableEq α] (adj : α → List α)
    (configs : List (List α)) (z : α) (t c : Nat) :
    (coverage_get adj configs (z, t, c) = 1 ↔
      ∃ cfg w, configs[c]? = some cfg ∧ cfg[t]? = some w ∧
        (z = w ∨ z ∈ adj w))
    ∧ (coverage_get adj configs (z, t, c) = 1 ∨
        coverage_get adj configs (z, t, c) = 0)
    ∧ (∀ cfg w, configs[c]? = some cfg → cfg[t]? = some w → z ∈ adj w →
        coverage_get adj configs (z, t, c) = 1) := by
  unfold coverage_get
  refine ⟨?_, by split <;> simp, ?_⟩
  · rw [← mem_coverageKeys adj configs z t c]
    split <;> rename_i h
    · simp [h]
    · simp [h]
  · intro cfg w hcfg hw hadj
    rw [if_pos ((mem_coverageKeys adj configs z t c).mpr
      ⟨cfg, w, hcfg, hw, Or.inr hadj⟩)]

/-! ### Base formulation (`src/models/base_model.py`, `BaseModel.build_model`)

Variables: `λ` (binary selection, one per configuration), `y` (integer
coverage, one per zone), `z` (integer fairness gap).  Gurobi integer
variables have default lower bound `0`. -/

/-- An assignment to the decision variables of the base formulation. -/
structure BaseAsg (α : Type) where
  lam : Nat → Int
  y : α → Int
  z : Int

/-- Whether configuration `c` qualifies for the base restriction: its time-0
zone (`config[0]`) lies in the supplied anchor set (`config[0] in
all_base_nodes`). -/
def validConfig {α : Type} [DecidableEq α] (configs : List (List α))
    (bases : List α) (c : Nat) : Bool :=
  match (configs.getD c []).head? with
  | some w => decide (w ∈ bases)
  | none => false

/-- Feasible assignments of the model built by `BaseModel.build_model`
(lines 22–78): one field per family of constraints added via `addConstr`,
plus the variable-domain facts (binary selection, default lower bound 0 on
the integer variables).  The base restriction mirrors the source exactly: the
constraint is added only when the supplied anchor set is not `None` and the
list of valid configurations is non-empty. -/
structure BaseFeasible {α : Type} [DecidableEq α] (zones : List α)
    (configs : List (List α)) (cov : α → Nat → Nat → Nat)
    (num_ambulances T : Nat) (all_base_nodes : Option (List α))
    (a : BaseAsg α) : Prop where
  lam_binary : ∀ c < configs.length, a.lam c = 0 ∨ a.lam c = 1
  y_nonneg : ∀ i ∈ zones, 0 ≤ a.y i
  z_nonneg : 0 ≤ a.z
  restriction : ∀ bases, all_base_nodes = some bases →
    ((List.range configs.length).any fun c => validConfig configs bases c) = true →
    ∑ c ∈ Finset.range configs.length,
      (if validConfig configs bases c then 0 else a.lam c) = 0
  count : ∑ c ∈ Finset.range configs.length, a.lam c = num_ambulances
  y_link : ∀ i ∈ zones, a.y i =
    ∑ c ∈ Finset.range configs.length, ∑ t ∈ Finset.range T,
      (cov i t c : Int) * a.lam c
  fair : ∀ i ∈ zones, ∀ j ∈ zones, a.y i - a.y j ≤ a.z

/-! ### Frequency-bounded formulation (`src/models/binary_model.py`,
`BinaryModel.build_model`)

Variables: `Z[c,k]` (binary one-hot indicators, `k` over
`0 … max_config_frequency`), `q[c]` (integer frequency), `y`, `z`. -/

/-- An assignment to the decision variables of the frequency-bounded
formulation. -/
structure BinAsg (α : Type) where
  Z : Nat → Nat → Int
  q : Nat → Int
  y : α → Int
  z : Int

/-- Feasible assignments of the model built by `BinaryModel.build_model`
(lines 9–89).  `K` is `max_config_frequency`; the one-hot indicators range
over `k ∈ {0, …, K}`.  The base restriction mirrors the source: applied to
`q[c]`, and only when the anchor set is not `None` and some configuration
qualifies. -/
structure BinFeasible {α : Type} [DecidableEq α] (zones : List α)
    (configs : List (List α)) (cov : α → Nat → Nat → Nat)
    (num_ambulances T K : Nat) (base_nodes : Option (List α))
    (a : BinAsg α) : Prop where
  z_binary : ∀ c < configs.length, ∀ k ≤ K, a.Z c k = 0 ∨ a.Z c k = 1
  q_nonneg : ∀ c < configs.length, 0 ≤ a.q c
  y_nonneg : ∀ i ∈ zones, 0 ≤ a.y i
  z_nonneg : 0 ≤ a.z
  restriction : ∀ bases, base_nodes = some bases →
    ((List.range configs.length).any fun c => validConfig configs bases c) = true →
    ∑ c ∈ Finset.range configs.length,
      (if validConfig configs bases c then 0 else a.q c) = 0
  one_hot : ∀ c < configs.length, ∑ k ∈ Finset.range (K + 1), a.Z c k = 1
  link : ∀ c < configs.length,
    a.q c = ∑ k ∈ Finset.range (K + 1), (k : Int) * a.Z c k
  count : ∑ c ∈ Finset.range configs.length, a.q c = num_ambulances
  y_link : ∀ i ∈ zones, a.y i =
    ∑ c ∈ Finset.range configs.length, ∑ t ∈ Finset.range T,
      (cov i t c : Int) * a.q c
  fair : ∀ i ∈ zones, ∀ j ∈ zones, a.y i - a.y j ≤ a.z

/-! ### Fairness gap (claim C3) -/

/-- The family of fairness constraints emitted by the models: one inequality
`g ≥ y i − y j` for every ordered pair of zones. -/
def fairnessConstraints {α : Type} (zones : List α) (y : α → Int) (g : Int) :
    Prop :=
  ∀ i ∈ zones, ∀ j ∈ zones, y i - y j ≤ g

theorem exists_list_argmax {α : Type} (f : α → Int) :
    ∀ l : List α, l ≠ [] → ∃ i ∈ l, ∀ k ∈ l, f k ≤ f i := by
  intro l
  induction l with
  | nil => intro h; exact absurd rfl h
  | cons a l ih =>
      intro _
      cases l with
      | nil => exact ⟨a, by simp⟩
      | cons b l2 =>
          obtain ⟨i, hi, hmax⟩ := ih (by simp)
          by_cases hcmp : f i ≤ f a
          · refine ⟨a, by simp, ?_⟩
            intro k hk
            rcases List.mem_cons.mp hk with rfl | hk2
            · exact le_refl _
            · exact le_trans (hmax k hk2) hcmp
          · refine ⟨i, List.mem_cons_of_mem a hi, ?_⟩
            intro k hk
            rcases List.mem_cons.mp hk with rfl | hk2
            · exact le_of_not_le hcmp
            · exact hmax k hk2

theorem exists_list_argmin {α : Type} (f : α → Int) (l : List α)
    (h : l ≠ []) : ∃ j ∈ l, ∀ k ∈ l, f j ≤ f k := by
  obtain ⟨j, hj, hmax⟩ := exists_list_argmax (fun k => -f k) l h
  exact ⟨j, hj, fun k hk => by have := hmax k hk; omega⟩

/-- Claim C3: every feasible assignment of the base formulation satisfies
`fairness_gap ≥ coverage[i] − coverage[j]` for all ordered zone pairs, and for
fixed nonnegative coverage values over a non-empty zone list the least value
satisfying the emitted fairness constraints is `max coverage − min coverage`
(exhibited as `y i − y j` for an argmax `i` and an argmin `j`). -/
theorem base_fairness_gap_minimal {α : Type} [DecidableEq α]
    (zones : List α) (configs : List (List α)) (cov : α → Nat → Nat → Nat)
    (A T : Nat) (bn : Option (List α)) (a : BaseAsg α)
    (hfeas : BaseFeasible zones configs cov A T bn a)
    (y : α → Int) (_hy : ∀ i ∈ zones, 0 ≤ y i) (hne : zones ≠ []) :
    (∀ i ∈ zones, ∀ j ∈ zones, a.y i - a.y j ≤ a.z)
    ∧ ∃ g, fairnessConstraints zones y g
        ∧ (∀ g2, fairnessConstraints zones y g2 → g ≤ g2)
        ∧ ∃ i ∈ zones, ∃ j ∈ zones,
            (∀ k ∈ zones, y k ≤ y i) ∧ (∀ k ∈ zones, y j ≤ y k)
            ∧ g = y i - y j := by
  refine ⟨hfeas.fair, ?_⟩
  obtain ⟨i, hi, hmax⟩ := exists_list_argmax y zones hne
  obtain ⟨j, hj, hmin⟩ := exists_list_argmin y zones hne
  refine ⟨y i - y j, ?_, ?_, i, hi, j, hj, hmax, hmin, rfl⟩
  · intro a2 ha2 b2 hb2
    have h1 := hmax a2 ha2
    have h2 := hmin b2 hb2
    omega
  · intro g2 hg2
    exact hg2 i hi j hj

/-! ### Concrete instances used as witnesses and counterexamples -/

/-- A one-zone instance: zone `0`, no neighbours. -/
def adj0 : Nat → List Nat := fun _ => []

/-- The one-configuration list for the one-zone instance: stay at zone `0`
for both periods (horizon `T = 2`). -/
def configs0 : List (List Nat) := [[0, 0]]

/-- A coverage function that marks every (zone, time, configuration) triple
covered. -/
def cov1 : Nat → Nat → Nat → Nat := fun _ _ _ => 1

/-- A concrete assignment for the base formulation on the one-zone instance:
the single configuration is selected, zone `0` accumulates coverage `2`, and
the fairness gap is `0`. -/
def asgCE : BaseAsg Nat where
  lam := fun _ => 1
  y := fun _ => 2
  z := 0

theorem asgCE_feasible_none :
    BaseFeasible [0] configs0 cov1 1 2 none asgCE :=
  ⟨by decide, by decide, by decide, fun bases hb => (nomatch hb),
    by decide, by decide, by decide⟩

/-- Witness for claim C3 at the concrete one-zone instance. -/
theorem base_fairness_gap_minimal_witness :
    (∀ i ∈ ([0] : List Nat), ∀ j ∈ ([0] : List Nat),
        asgCE.y i - asgCE.y j ≤ asgCE.z)
    ∧ ∃ g, fairnessConstraints [0] (fun _ : Nat => (0 : Int)) g
        ∧ (∀ g2, fairnessConstraints [0] (fun _ : Nat => (0 : Int)) g2 → g ≤ g2)
        ∧ ∃ i ∈ ([0] : List Nat), ∃ j ∈ ([0] : List Nat),
            (∀ k ∈ ([0] : List Nat), (0 : Int) ≤ 0)
            ∧ (∀ k ∈ ([0] : List Nat), (0 : Int) ≤ 0)
            ∧ g = 0 - 0 :=
  base_fairness_gap_minimal [0] configs0 cov1 1 2 none asgCE
    asgCE_feasible_none (fun _ => 0) (by decide) (by decide)

/-! ### Base restriction (claim C4) -/

/-- A concrete assignment for the frequency-bounded formulation on the
one-zone instance: the single configuration is used once (`q = 1`,
one-hot indicator at `k = 1`). -/
def binAsg0 : BinAsg Nat where
  Z := fun _ k => if k = 1 then 1 else 0
  q := fun _ => 1
  y := fun _ => 2
  z := 0

theorem asgCE_feasible_some1 :
    BaseFeasible [0] configs0 cov1 1 2 (some [1]) asgCE :=
  ⟨by decide, by decide, by decide,
    fun bases hb hg => by
      injection hb with h
      subst h
      exact absurd hg (by decide),
    by decide, by decide, by decide⟩

theorem asgCE_feasible_some0 :
    BaseFeasible [0] configs0 cov1 1 2 (some [0]) asgCE :=
  ⟨by decide, by decide, by decide,
    fun bases hb hg => by
      injection hb with h
      subst h
      decide,
    by decide, by decide, by decide⟩

theorem binAsg0_feasible_some0 :
    BinFeasible [0] configs0 cov1 1 2 1 (some [0]) binAsg0 :=
  ⟨by decide, by decide, by decide, by decide,
    fun bases hb hg => by
      injection hb with h
      subst h
      decide,
    by decide, by decide, by decide, by decide, by decide⟩

theorem binAsg0_feasible_none :
    BinFeasible [0] configs0 cov1 1 2 1 none binAsg0 :=
  ⟨by decide, by decide, by decide, by decide,
    fun bases hb => (nomatch hb),
    by decide, by decide, by decide, by decide, by decide⟩

/-- Claim C4 counterexample: when the supplied anchor set contains no
configuration's time-0 zone, the built model skips the restriction constraint
entirely (the `if valid_configs:` guard), so a feasible assignment may select
a configuration whose time-0 zone is outside the anchor set.  Here the anchor
set `[1]` excludes the single configuration (which starts at zone `0`), yet
the assignment selecting it is feasible. -/
theorem base_restriction_skipped_cex :
    BaseFeasible [0] configs0 cov1 1 2 (some [1]) asgCE
    ∧ validConfig configs0 [1] 0 = false ∧ asgCE.lam 0 = 1 :=
  ⟨asgCE_feasible_some1, by decide, by decide⟩

/-- Claim C4 (amended): whenever an explicit anchor set is supplied AND at
least one configuration's time-0 zone lies in it, every feasible assignment
of the base formulation has `selection[c] = 0`, and every feasible assignment
of the frequency-bounded formulation has `frequency[c] = 0`, for every
configuration `c` whose time-0 zone is not in the set. -/
theorem base_restriction_amended {α : Type} [DecidableEq α]
    (zones : List α) (configs : List (List α)) (cov : α → Nat → Nat → Nat)
    (A T : Nat) (bases : List α) (a : BaseAsg α)
    (ha : BaseFeasible zones configs cov A T (some bases) a)
    (hvalid : ∃ c, c < configs.length ∧ validConfig configs bases c = true)
    (zones2 : List α) (configs2 : List (List α)) (cov2 : α → Nat → Nat → Nat)
    (A2 T2 K2 : Nat) (bases2 : List α) (b : BinAsg α)
    (hb : BinFeasible zones2 configs2 cov2 A2 T2 K2 (some bases2) b)
    (hvalid2 : ∃ c, c < configs2.length ∧ validConfig configs2 bases2 c = true) :
    (∀ c < configs.length, validConfig configs bases c = false → a.lam c = 0)
    ∧ (∀ c < configs2.length, validConfig configs2 bases2 c = false → b.q c = 0) := by
  constructor
  · obtain ⟨c0, hc0, hv0⟩ := hvalid
    have hany : ((List.range configs.length).any fun c =>
        validConfig configs bases c) = true :=
      List.any_eq_true.mpr ⟨c0, List.mem_range.mpr hc0, hv0⟩
    have hsum := ha.restriction bases rfl hany
    have hnn : ∀ c ∈ Finset.range configs.length,
        (0 : Int) ≤ if validConfig configs bases c then 0 else a.lam c := by
      intro c hc
      split
      · exact le_refl 0
      · rcases ha.lam_binary c (Finset.mem_range.mp hc) with h | h <;> omega
    have hall := (Finset.sum_eq_zero_iff_of_nonneg hnn).mp hsum
    intro c hc hfalse
    have := hall c (Finset.mem_range.mpr hc)
    rwa [if_neg (by simp [hfalse])] at this
  · obtain ⟨c0, hc0, hv0⟩ := hvalid2
    have hany : ((List.range configs2.length).any fun c =>
        validConfig configs2 bases2 c) = true :=
      List.any_eq_true.mpr ⟨c0, List.mem_range.mpr hc0, hv0⟩
    have hsum := hb.restriction bases2 rfl hany
    have hnn : ∀ c ∈ Finset.range configs2.length,
        (0 : Int) ≤ if validConfig configs2 bases2 c then 0 else b.q c := by
      intro c hc
      split
      · exact le_refl 0
      · exact hb.q_nonneg c (Finset.mem_range.mp hc)
    have hall := (Finset.sum_eq_zero_iff_of_nonneg hnn).mp hsum
    intro c hc hfalse
    have := hall c (Finset.mem_range.mpr hc)
    rwa [if_neg (by simp [hfalse])] at this

/-- Witness for the amended claim C4 at the concrete one-zone instance with
anchor set `[0]` (which contains the configuration's time-0 zone). -/
theorem base_restriction_amended_witness :
    (∀ c < configs0.length, validConfig configs0 [0] c = false →
        asgCE.lam c = 0)
    ∧ (∀ c < configs0.length, validConfig configs0 [0] c = false →
        binAsg0.q c = 0) :=
  base_restriction_amended [0] configs0 cov1 1 2 [0] asgCE
    asgCE_feasible_some0 ⟨0, by decide, by decide⟩
    [0] configs0 cov1 1 2 1 [0] binAsg0
    binAsg0_feasible_some0 ⟨0, by decide, by decide⟩

/-! ### One-hot encoding (claim C5) -/

theorem sum_binary_eq_one {f : Nat → Int} :
    ∀ {n : Nat}, (∀ k < n, f k = 0 ∨ f k = 1) →
      (∑ k ∈ Finset.range n, f k = 1) →
      ∃ k0, k0 < n ∧ f k0 = 1 ∧ ∀ k < n, k ≠ k0 → f k = 0 := by
  intro n
  induction n with
  | zero => intro _ hsum; simp at hsum
  | succ n ih =>
      intro hbin hsum
      rw [Finset.sum_range_succ] at hsum
      rcases hbin n (by omega) with hn | hn
      · have hsum2 : ∑ k ∈ Finset.range n, f k = 1 := by omega
        obtain ⟨k0, hk0, h1, h0⟩ := ih (fun k hk => hbin k (by omega)) hsum2
        refine ⟨k0, by omega, h1, ?_⟩
        intro k hk hne
        rcases Nat.lt_succ_iff_lt_or_eq.mp hk with hk2 | rfl
        · exact h0 k hk2 hne
        · exact hn
      · have hsum2 : ∑ k ∈ Finset.range n, f k = 0 := by omega
        have hnn : ∀ k ∈ Finset.range n, (0 : Int) ≤ f k := by
          intro k hk
          have hk2 : k < n + 1 := by
            have := Finset.mem_range.mp hk
            omega
          rcases hbin k hk2 with h | h <;> omega
        have hall := (Finset.sum_eq_zero_iff_of_nonneg hnn).mp hsum2
        refine ⟨n, by omega, hn, ?_⟩
        intro k hk hne
        exact hall k (Finset.mem_range.mpr (by omega))

theorem weighted_sum_of_single {f : Nat → Int} {n k0 : Nat} (hk0 : k0 < n)
    (h1 : f k0 = 1) (h0 : ∀ k < n, k ≠ k0 → f k = 0) :
    ∑ k ∈ Finset.range n, (k : Int) * f k = k0 := by
  rw [Finset.sum_eq_single_of_mem k0 (Finset.mem_range.mpr hk0)
    (fun b hb hne => by rw [h0 b (Finset.mem_range.mp hb) hne, mul_zero])]
  rw [h1, mul_one]

/-- Claim C5: in every feasible assignment of the frequency-bounded
formulation, each configuration has exactly one indicator `Z[c,k]` set to `1`
and `q[c]` equals that `k`; the frequencies sum to `num_ambulances`, and in
the base formulation the selections sum to `num_ambulances`. -/
theorem onehot_exactly_one {α : Type} [DecidableEq α]
    (zones : List α) (configs : List (List α)) (cov : α → Nat → Nat → Nat)
    (A T K : Nat) (bn : Option (List α)) (a : BinAsg α)
    (ha : BinFeasible zones configs cov A T K bn a)
    (zones2 : List α) (configs2 : List (List α)) (cov2 : α → Nat → Nat → Nat)
    (A2 T2 : Nat) (bn2 : Option (List α)) (b : BaseAsg α)
    (hb : BaseFeasible zones2 configs2 cov2 A2 T2 bn2 b) :
    (∀ c < configs.length, ∃ k, k ≤ K ∧ a.Z c k = 1
        ∧ (∀ k2 ≤ K, a.Z c k2 = 1 → k2 = k) ∧ a.q c = k)
    ∧ (∑ c ∈ Finset.range configs.length, a.q c = A)
    ∧ (∑ c ∈ Finset.range configs2.length, b.lam c = A2) := by
  refine ⟨?_, ha.count, hb.count⟩
  intro c hc
  have hbin : ∀ k < K + 1, a.Z c k = 0 ∨ a.Z c k = 1 :=
    fun k hk => ha.z_binary c hc k (by omega)
  obtain ⟨k0, hk0, h1, h0⟩ := sum_binary_eq_one hbin (ha.one_hot c hc)
  refine ⟨k0, by omega, h1, ?_, ?_⟩
  · intro k2 hk2 hz
    by_contra hne
    have := h0 k2 (by omega) hne
    omega
  · rw [ha.link c hc]
    exact weighted_sum_of_single hk0 h1 h0

/-- Witness for claim C5 at the concrete one-zone instance. -/
theorem onehot_exactly_one_witness :
    (∀ c < configs0.length, ∃ k, k ≤ 1 ∧ binAsg0.Z c k = 1
        ∧ (∀ k2 ≤ 1, binAsg0.Z c k2 = 1 → k2 = k) ∧ binAsg0.q c = k)
    ∧ (∑ c ∈ Finset.range configs0.length, binAsg0.q c = 1)
    ∧ (∑ c ∈ Finset.range configs0.length, asgCE.lam c = 1) :=
  onehot_exactly_one [0] configs0 cov1 1 2 1 none binAsg0
    binAsg0_feasible_none [0] configs0 cov1 1 2 none asgCE
    asgCE_feasible_none

/-! ### Feasibility of the frequency-bounded formulation (claim C6) -/

/-- The coverage matrix handed to the models by the run scripts, as a total
function: entry lookup with default `0`. -/
def covOf {α : Type} [DecidableEq α] (adj : α → List α)
    (configs : List (List α)) : α → Nat → Nat → Nat :=
  fun i t c => coverage_get adj configs (i, t, c)

theorem covOf_le_one {α : Type} [DecidableEq α] (adj : α → List α)
    (configs : List (List α)) (i : α) (t c : Nat) :
    covOf adj configs i t c ≤ 1 := by
  unfold covOf coverage_get
  split <;> omega

/-- Greedy frequency assignment: fill configurations in index order, each up
to the maximum frequency `K`, until `A` ambulances are placed. -/
def greedyBin {α : Type} (cov : α → Nat → Nat → Nat) (n T K A : Nat) :
    BinAsg α where
  Z := fun c k => if k = min K (A - c * K) then 1 else 0
  q := fun c => ((min K (A - c * K) : Nat) : Int)
  y := fun i => ∑ c ∈ Finset.range n, ∑ t ∈ Finset.range T,
    (cov i t c : Int) * ((min K (A - c * K) : Nat) : Int)
  z := ((T * A : Nat) : Int)

theorem greedy_sum_min (K : Nat) :
    ∀ n A : Nat, ∑ c ∈ Finset.range n, min K (A - c * K) = min A (n * K) := by
  intro n
  induction n with
  | zero => intro A; simp
  | succ n ih =>
      intro A
      rw [Finset.sum_range_succ, ih A, Nat.succ_mul]
      omega

theorem q_le_K_of_feasible {α : Type} [DecidableEq α] {zones : List α}
    {configs : List (List α)} {cov : α → Nat → Nat → Nat} {A T K : Nat}
    {bn : Option (List α)} {a : BinAsg α}
    (h : BinFeasible zones configs cov A T K bn a) :
    ∀ c < configs.length, a.q c ≤ K := by
  intro c hc
  have hbin : ∀ k < K + 1, a.Z c k = 0 ∨ a.Z c k = 1 :=
    fun k hk => h.z_binary c hc k (by omega)
  obtain ⟨k0, hk0, h1, h0⟩ := sum_binary_eq_one hbin (h.one_hot c hc)
  have hq : a.q c = k0 := by
    rw [h.link c hc]
    exact weighted_sum_of_single hk0 h1 h0
  rw [hq]
  exact_mod_cast Nat.le_of_lt_succ hk0

theorem binFeasible_bound {α : Type} [DecidableEq α] {zones : List α}
    {configs : List (List α)} {cov : α → Nat → Nat → Nat} {A T K : Nat}
    {bn : Option (List α)} {a : BinAsg α}
    (h : BinFeasible zones configs cov A T K bn a) :
    A ≤ configs.length * K := by
  have hsum : (A : Int) = ∑ c ∈ Finset.range configs.length, a.q c :=
    (h.count).symm
  have hle : ∑ c ∈ Finset.range configs.length, a.q c ≤
      ∑ _c ∈ Finset.range configs.length, (K : Int) :=
    Finset.sum_le_sum fun c hc => q_le_K_of_feasible h c (Finset.mem_range.mp hc)
  rw [Finset.sum_const, Finset.card_range, nsmul_eq_mul] at hle
  have : (A : Int) ≤ (configs.length : Int) * (K : Int) := by omega
  exact_mod_cast this

theorem binFeasible_greedy {α : Type} [DecidableEq α] (zones : List α)
    (configs : List (List α)) (cov : α → Nat → Nat → Nat)
    (hcov : ∀ i t c, cov i t c ≤ 1) (A T K : Nat)
    (hle : A ≤ configs.length * K) :
    BinFeasible zones configs cov A T K none
      (greedyBin cov configs.length T K A) := by
  set n := configs.length with hn
  have hqnn : ∀ c : Nat, (0 : Int) ≤ ((min K (A - c * K) : Nat) : Int) :=
    fun c => Int.ofNat_nonneg _
  refine ⟨?_, ?_, ?_, ?_, fun bases hb => (nomatch hb), ?_, ?_, ?_, ?_, ?_⟩
  · intro c _ k _
    dsimp [greedyBin]
    split <;> simp
  · intro c _
    exact hqnn c
  · intro i _
    dsimp [greedyBin]
    refine Finset.sum_nonneg fun c _ => Finset.sum_nonneg fun t _ => ?_
    exact mul_nonneg (Int.ofNat_nonneg _) (hqnn c)
  · exact Int.ofNat_nonneg _
  · intro c _
    dsimp [greedyBin]
    rw [Finset.sum_ite_eq' (Finset.range (K + 1)) (min K (A - c * K))
      (fun _ => (1 : Int))]
    rw [if_pos (Finset.mem_range.mpr (by omega))]
  · intro c _
    dsimp [greedyBin]
    have hstep : ∀ k ∈ Finset.range (K + 1),
        (k : Int) * (if k = min K (A - c * K) then 1 else 0) =
          (if k = min K (A - c * K) then (k : Int) else 0) := by
      intro k _
      split <;> simp
    rw [Finset.sum_congr rfl hstep,
      Finset.sum_ite_eq' (Finset.range (K + 1)) (min K (A - c * K))
        (fun k => (k : Int)),
      if_pos (Finset.mem_range.mpr (by omega))]
  · dsimp [greedyBin]
    rw [← Nat.cast_sum, greedy_sum_min K n A]
    have : min A (n * K) = A := Nat.min_eq_left hle
    rw [this]
  · intro i _
    rfl
  · intro i _ j _
    dsimp [greedyBin]
    have hyle : ∀ i0 : α,
        ∑ c ∈ Finset.range n, ∑ t ∈ Finset.range T,
            (cov i0 t c : Int) * ((min K (A - c * K) : Nat) : Int) ≤
          ((T * A : Nat) : Int) := by
      intro i0
      have h1 : ∀ c ∈ Finset.range n,
          ∑ t ∈ Finset.range T,
              (cov i0 t c : Int) * ((min K (A - c * K) : Nat) : Int) ≤
            (T : Int) * ((min K (A - c * K) : Nat) : Int) := by
        intro c _
        have h2 : ∀ t ∈ Finset.range T,
            (cov i0 t c : Int) * ((min K (A - c * K) : Nat) : Int) ≤
              ((min K (A - c * K) : Nat) : Int) := by
          intro t _
          have hc1 : (cov i0 t c : Int) ≤ 1 := by exact_mod_cast hcov i0 t c
          nlinarith [hqnn c]
        calc ∑ t ∈ Finset.range T,
              (cov i0 t c : Int) * ((min K (A - c * K) : Nat) : Int)
            ≤ ∑ _t ∈ Finset.range T, ((min K (A - c * K) : Nat) : Int) :=
              Finset.sum_le_sum h2
          _ = (T : Int) * ((min K (A - c * K) : Nat) : Int) := by
              rw [Finset.sum_const, Finset.card_range, nsmul_eq_mul]
      calc ∑ c ∈ Finset.range n, ∑ t ∈ Finset.range T,
            (cov i0 t c : Int) * ((min K (A - c * K) : Nat) : Int)
          ≤ ∑ c ∈ Finset.range n,
              (T : Int) * ((min K (A - c * K) : Nat) : Int) :=
            Finset.sum_le_sum h1
        _ = (T : Int) * ∑ c ∈ Finset.range n,
              ((min K (A - c * K) : Nat) : Int) := by rw [Finset.mul_sum]
        _ = ((T * A : Nat) : Int) := by
            rw [← Nat.cast_sum, greedy_sum_min K n A,
              Nat.min_eq_left hle]
            push_cast
            ring
    have hy1 := hyle i
    have hy2 : (0 : Int) ≤ ∑ c ∈ Finset.range n, ∑ t ∈ Finset.range T,
        (cov j t c : Int) * ((min K (A - c * K) : Nat) : Int) :=
      Finset.sum_nonneg fun c _ => Finset.sum_nonneg fun t _ =>
        mul_nonneg (Int.ofNat_nonneg _) (hqnn c)
    omega

/-- Scenario C zones: two adjacent zones `0` and `1`. -/
def zonesC : List Nat := [0, 1]

/-- Scenario C adjacency: zones `0` and `1` are mutually adjacent. -/
def adjC : Nat → List Nat := fun z =>
  if z = 0 then [1] else if z = 1 then [0] else []

/-- Scenario C configurations: two stay-put configurations over horizon 2. -/
def configsC : List (List Nat) := [[0, 0], [1, 1]]

/-- Claim C6: the frequency-bounded formulation with no base restriction is
feasible exactly when `num_ambulances ≤ (number of configurations) ×
max_frequency`; in Scenario C (2 configurations, `max_frequency` 2) it is
infeasible exactly when `2 × max_frequency < num_ambulances`. -/
theorem binarized_feasible_iff {α : Type} [DecidableEq α] (zones : List α)
    (configs : List (List α)) (adj : α → List α) (A T K : Nat) :
    ((∃ a : BinAsg α,
        BinFeasible zones configs (covOf adj configs) A T K none a) ↔
      A ≤ configs.length * K)
    ∧ ∀ A2 : Nat,
        (¬ ∃ a : BinAsg Nat,
            BinFeasible zonesC configsC (covOf adjC configsC) A2 2 2 none a) ↔
          2 * 2 < A2 := by
  constructor
  · constructor
    · rintro ⟨a, ha⟩
      exact binFeasible_bound ha
    · intro hle
      exact ⟨greedyBin (covOf adj configs) configs.length T K A,
        binFeasible_greedy zones configs (covOf adj configs)
          (covOf_le_one adj configs) A T K hle⟩
  · intro A2
    constructor
    · intro hne
      by_contra hle
      push_neg at hle
      exact hne ⟨greedyBin (covOf adjC configsC) configsC.length 2 2 A2,
        binFeasible_greedy zonesC configsC (covOf adjC configsC)
          (covOf_le_one adjC configsC) A2 2 2 (by simpa [configsC] using hle)⟩
    · rintro hgt ⟨a, ha⟩
      have := binFeasible_bound ha
      simp [configsC] at this
      omega

/-! ### Consistency formulation (`src/models/consistency_model.py`,
`ConsistencyModel.build_model`)

Variables: one-hot indicators `Z[c,k]` and frequencies `q[c]` as in the
frequency-bounded model, occupancies `x[i,t]`, movements `m[i,j,t]` (created
only for zone pairs that are equal or adjacent and periods `t < T−1`),
coverages `y[i]`, fairness gap `z`. -/

/-- An assignment to the decision variables of the consistency
formulation. -/
structure ConsAsg (α : Type) where
  Z : Nat → Nat → Int
  q : Nat → Int
  x : α → Nat → Int
  m : α → α → Nat → Int
  y : α → Int
  z : Int

/-- Sum of an integer quantity over the zone list (Gurobi `quicksum` over
`zones`). -/
def zoneSum {α : Type} (zones : List α) (f : α → Int) : Int :=
  (zones.map f).sum

/-- The key set of the movement dictionary `m`: the pairs `(i, j)` of zones
for which a movement variable exists, i.e. `i == j or j in
adjacency.get(i, set())`.  Keys of a dictionary are unique, hence the
deduplication. -/
def movePairs {α : Type} [DecidableEq α] (zones : List α)
    (adj : α → List α) : List (α × α) :=
  ((zones.product zones).filter fun p =>
    decide (p.1 = p.2 ∨ p.2 ∈ adj p.1)).dedup

/-- The configuration's position at period `t` (`config[t]`). -/
def posAt {α : Type} (configs : List (List α)) (c t : Nat) : Option α :=
  (configs.getD c [])[t]?

/-- Feasible assignments of the model built by
`ConsistencyModel.build_model` (lines 9–149).  `K` is
`max_config_frequency`, `M` is `max_movement`.  The period-0 base
restriction mirrors the Python truthiness test `if base_coords:` — it
constrains nothing when `base_coords` is `None` or the empty list.  The
adjacency constraint of lines 113–119 only fires for keys present in `m`,
which by construction already satisfy the adjacency condition, so its
faithful embedding carries both conditions.  Coverage is computed from the
internally rebuilt coverage matrix (lines 122–139). -/
structure ConsFeasible {α : Type} [DecidableEq α] (zones : List α)
    (configs : List (List α)) (adj : α → List α)
    (num_ambulances T K M : Nat) (base_coords : Option (List α))
    (a : ConsAsg α) : Prop where
  z_binary : ∀ c < configs.length, ∀ k ≤ K, a.Z c k = 0 ∨ a.Z c k = 1
  q_nonneg : ∀ c < configs.length, 0 ≤ a.q c
  x_nonneg : ∀ i ∈ zones, ∀ t < T, 0 ≤ a.x i t
  m_nonneg : ∀ t, t < T - 1 → ∀ i ∈ zones, ∀ j ∈ zones,
    (i = j ∨ j ∈ adj i) → 0 ≤ a.m i j t
  y_nonneg : ∀ i ∈ zones, 0 ≤ a.y i
  zvar_nonneg : 0 ≤ a.z
  base0 : ∀ bc, base_coords = some bc → bc ≠ [] →
    ∀ i ∈ zones, i ∉ bc → a.x i 0 = 0
  one_hot : ∀ c < configs.length, ∑ k ∈ Finset.range (K + 1), a.Z c k = 1
  link : ∀ c < configs.length,
    a.q c = ∑ k ∈ Finset.range (K + 1), (k : Int) * a.Z c k
  count : ∑ c ∈ Finset.range configs.length, a.q c = num_ambulances
  x_link : ∀ i ∈ zones, ∀ t < T, a.x i t =
    ∑ c ∈ Finset.range configs.length,
      (if posAt configs c t = some i then a.q c else 0)
  flow : ∀ i ∈ zones, ∀ t, t < T - 1 →
    a.x i t
      + zoneSum zones (fun j => if j = i ∨ i ∈ adj j then a.m j i t else 0)
      - zoneSum zones (fun j => if i = j ∨ j ∈ adj i then a.m i j t else 0)
      = a.x i (t + 1)
  budget : ∀ t, t < T - 1 →
    (((movePairs zones adj).filter fun p => decide (p.1 ≠ p.2)).map
      fun p => a.m p.1 p.2 t).sum ≤ M
  adj_zero : ∀ t, t < T - 1 → ∀ i ∈ zones, ∀ j ∈ zones,
    i ≠ j → j ∉ adj i → (i = j ∨ j ∈ adj i) → a.m i j t = 0
  y_link : ∀ i ∈ zones, a.y i =
    ∑ c ∈ Finset.range configs.length, ∑ t ∈ Finset.range T,
      (coverage_get adj configs (i, t, c) : Int) * a.q c
  fair : ∀ i ∈ zones, ∀ j ∈ zones, a.y i - a.y j ≤ a.z

/-- Claim C7: every feasible assignment of the consistency formulation
satisfies flow conservation — occupancy plus movement arrivals minus
movement departures equals next-period occupancy, for every zone and every
period `t < T − 1` — where movement variables exist exactly for equal or
adjacent zone pairs. -/
theorem cons_flow_conservation {α : Type} [DecidableEq α] (zones : List α)
    (configs : List (List α)) (adj : α → List α) (A T K M : Nat)
    (bc : Option (List α)) (a : ConsAsg α)
    (h : ConsFeasible zones configs adj A T K M bc a) :
    ∀ i ∈ zones, ∀ t, t < T - 1 →
      a.x i t
        + zoneSum zones (fun j => if j = i ∨ i ∈ adj j then a.m j i t else 0)
        - zoneSum zones (fun j => if i = j ∨ j ∈ adj i then a.m i j t else 0)
        = a.x i (t + 1) :=
  h.flow

/-- A concrete assignment for the consistency formulation on the one-zone
instance: one ambulance stays at zone `0` for both periods; no movement. -/
def consAsg0 : ConsAsg Nat where
  Z := fun _ k => if k = 1 then 1 else 0
  q := fun _ => 1
  x := fun _ _ => 1
  m := fun _ _ _ => 0
  y := fun _ => 2
  z := 0

theorem consAsg0_feasible_none :
    ConsFeasible [0] configs0 adj0 1 2 1 0 none consAsg0 :=
  ⟨by decide, by decide, by decide, by decide, by decide, by decide,
    fun bc hb => (nomatch hb),
    by decide, by decide, by decide, by decide, by decide, by decide,
    by decide, by decide, by decide⟩

theorem consAsg0_feasible_someEmpty :
    ConsFeasible [0] configs0 adj0 1 2 1 0 (some []) consAsg0 :=
  ⟨by decide, by decide, by decide, by decide, by decide, by decide,
    fun bc hb hne => by
      injection hb with h2
      subst h2
      exact absurd rfl hne,
    by decide, by decide, by decide, by decide, by decide, by decide,
    by decide, by decide, by decide⟩

theorem consAsg0_feasible_some0 :
    ConsFeasible [0] configs0 adj0 1 2 1 0 (some [0]) consAsg0 :=
  ⟨by decide, by decide, by decide, by decide, by decide, by decide,
    fun bc hb hne i hi hni => by
      injection hb with h2
      subst h2
      exact absurd hi hni,
    by decide, by decide, by decide, by decide, by decide, by decide,
    by decide, by decide, by decide⟩

/-- Witness for claim C7 at the concrete one-zone instance, zone `0`,
period `0`. -/
theorem cons_flow_conservation_witness :
    consAsg0.x 0 0
      + zoneSum [0] (fun j => if j = 0 ∨ 0 ∈ adj0 j then consAsg0.m j 0 0 else 0)
      - zoneSum [0] (fun j => if 0 = j ∨ j ∈ adj0 0 then consAsg0.m 0 j 0 else 0)
      = consAsg0.x 0 (0 + 1) :=
  cons_flow_conservation [0] configs0 adj0 1 2 1 0 none consAsg0
    consAsg0_feasible_none 0 (by decide) 0 (by decide)

/-- Claim C8 counterexample: with the empty base-coordinate list supplied,
the Python truthiness test `if base_coords:` skips the period-0 restriction
entirely, so a feasible assignment may have positive occupancy at a zone not
in the (empty) supplied set. -/
theorem cons_empty_bases_cex :
    ConsFeasible [0] configs0 adj0 1 2 1 0 (some []) consAsg0
    ∧ (0 : Nat) ∉ ([] : List Nat) ∧ consAsg0.x 0 0 = 1 :=
  ⟨consAsg0_feasible_someEmpty, by decide, by decide⟩

/-- Claim C8 (amended): whenever a NON-EMPTY set of base coordinates is
supplied to the consistency formulation, every feasible assignment has
occupancy `x[i,0] = 0` for every zone `i` not in that set. -/
theorem cons_base_restriction_amended {α : Type} [DecidableEq α]
    (zones : List α) (configs : List (List α)) (adj : α → List α)
    (A T K M : Nat) (bc : List α) (hne : bc ≠ []) (a : ConsAsg α)
    (h : ConsFeasible zones configs adj A T K M (some bc) a) :
    ∀ i ∈ zones, i ∉ bc → a.x i 0 = 0 :=
  h.base0 bc rfl hne

/-- A concrete assignment for the consistency formulation on a two-zone
instance with base set `[1]`: one ambulance stays at zone `1`; the non-base
zone `0` is empty. -/
def consAsg1 : ConsAsg Nat where
  Z := fun _ k => if k = 1 then 1 else 0
  q := fun _ => 1
  x := fun i _ => if i = 1 then 1 else 0
  m := fun _ _ _ => 0
  y := fun i => if i = 1 then 2 else 0
  z := 2

theorem consAsg1_feasible_some1 :
    ConsFeasible [0, 1] [[1, 1]] adj0 1 2 1 0 (some [1]) consAsg1 :=
  ⟨by decide, by decide, by decide, by decide, by decide, by decide,
    fun bc hb _hne i hi hni => by
      injection hb with h2
      subst h2
      rcases List.mem_cons.mp hi with rfl | hi2
      · decide
      · rcases List.mem_cons.mp hi2 with rfl | hi3
        · exact absurd (List.mem_singleton.mpr rfl) hni
        · exact absurd hi3 (List.not_mem_nil i),
    by decide, by decide, by decide, by decide, by decide, by decide,
    by decide, by decide, by decide⟩

/-- Witness for the amended claim C8 at the concrete two-zone instance with
base set `[1]`: the non-base zone `0` has occupancy `0` at period 0. -/
theorem cons_base_restriction_amended_witness :
    consAsg1.x 0 0 = 0 :=
  cons_base_restriction_amended [0, 1] [[1, 1]] adj0 1 2 1 0 [1] (by decide)
    consAsg1 consAsg1_feasible_some1 0 (by decide) (by decide)

/-! ### Fleet-size conservation (claim C10) -/

theorem zoneSum_congr {α : Type} :
    ∀ (zones : List α) (f g : α → Int), (∀ i ∈ zones, f i = g i) →
      zoneSum zones f = zoneSum zones g := by
  intro zones
  induction zones with
  | nil => intro f g _; rfl
  | cons a l ih =>
      intro f g h
      simp only [zoneSum, List.map_cons, List.sum_cons]
      have h2 := ih f g fun i hi => h i (List.mem_cons_of_mem a hi)
      simp only [zoneSum] at h2
      rw [h a (List.mem_cons_self a l), h2]

theorem zoneSum_sum_comm {α : Type} :
    ∀ (zones : List α) (s : Finset Nat) (F : Nat → α → Int),
      zoneSum zones (fun i => ∑ c ∈ s, F c i) =
        ∑ c ∈ s, zoneSum zones (fun i => F c i) := by
  intro zones
  induction zones with
  | nil => intro s F; simp [zoneSum]
  | cons a l ih =>
      intro s F
      simp only [zoneSum, List.map_cons, List.sum_cons]
      have h2 := ih s F
      simp only [zoneSum] at h2
      rw [h2, ← Finset.sum_add_distrib]

theorem zoneSum_ite_zero {α : Type} [DecidableEq α] (w : α) (v : Int) :
    ∀ l : List α, w ∉ l →
      zoneSum l (fun i => if w = i then v else 0) = 0 := by
  intro l
  induction l with
  | nil => intro _; rfl
  | cons a l ih =>
      intro hw
      simp only [zoneSum, List.map_cons, List.sum_cons]
      have h2 := ih fun h => hw (List.mem_cons_of_mem a h)
      simp only [zoneSum] at h2
      rw [if_neg (fun h => hw (by rw [h]; exact List.mem_cons_self a l)),
        h2, add_zero]

theorem zoneSum_ite_single {α : Type} [DecidableEq α] (v : Int) :
    ∀ zones : List α, zones.Nodup → ∀ w ∈ zones,
      zoneSum zones (fun i => if w = i then v else 0) = v := by
  intro zones
  induction zones with
  | nil => intro _ w hw; exact absurd hw (List.not_mem_nil w)
  | cons a l ih =>
      intro hnd w hw
      obtain ⟨hna, hndl⟩ := List.nodup_cons.mp hnd
      simp only [zoneSum, List.map_cons, List.sum_cons]
      rcases List.mem_cons.mp hw with rfl | hwl
      · rw [if_pos rfl]
        have h0 := zoneSum_ite_zero w v l hna
        simp only [zoneSum] at h0
        rw [h0, add_zero]
      · have hwa : w ≠ a := fun h => hna (h ▸ hwl)
        have h2 := ih hndl w hwl
        simp only [zoneSum] at h2
        rw [if_neg hwa, h2, zero_add]

/-- Claim C10: in every feasible assignment of the consistency formulation,
provided the zone list has no duplicates and every configuration's position
at every period is one of the supplied zones, total occupancy
`Σ_i x[i,t]` equals `num_ambulances` at every period. -/
theorem cons_occupancy_total {α : Type} [DecidableEq α] (zones : List α)
    (configs : List (List α)) (adj : α → List α) (A T K M : Nat)
    (bc : Option (List α)) (a : ConsAsg α)
    (h : ConsFeasible zones configs adj A T K M bc a)
    (hnd : zones.Nodup)
    (hpos : ∀ c < configs.length, ∀ t < T,
      ∃ w ∈ zones, posAt configs c t = some w) :
    ∀ t < T, zoneSum zones (fun i => a.x i t) = A := by
  intro t ht
  have h1 : zoneSum zones (fun i => a.x i t) =
      zoneSum zones (fun i => ∑ c ∈ Finset.range configs.length,
        if posAt configs c t = some i then a.q c else 0) :=
    zoneSum_congr zones _ _ fun i hi => h.x_link i hi t ht
  rw [h1, zoneSum_sum_comm]
  have h2 : ∀ c ∈ Finset.range configs.length,
      zoneSum zones (fun i => if posAt configs c t = some i then a.q c else 0)
        = a.q c := by
    intro c hc
    obtain ⟨w, hw, hwc⟩ := hpos c (Finset.mem_range.mp hc) t ht
    have h3 : zoneSum zones
        (fun i => if posAt configs c t = some i then a.q c else 0) =
        zoneSum zones (fun i => if w = i then a.q c else 0) :=
      zoneSum_congr zones _ _ fun i _ => by rw [hwc]; simp
    rw [h3]
    exact zoneSum_ite_single (a.q c) zones hnd w hw
  rw [Finset.sum_congr rfl h2]
  exact h.count

/-- Witness for claim C10 at the concrete one-zone instance, period `0`. -/
theorem cons_occupancy_total_witness :
    zoneSum [0] (fun i => consAsg0.x i 0) = 1 :=
  cons_occupancy_total [0] configs0 adj0 1 2 1 0 none consAsg0
    consAsg0_feasible_none (by decide) (by decide) 0 (by decide)

/-! ### Result recording (claim C9)

`scripts/run_base_analysis.py` lines 120–127 record, after each solve:

    status = model_obj.status
    if status == 2:  # Optimal
        fairness_gap = int(z.X)
        solution_found = True
    else:
        fairness_gap = -1
        solution_found = False

`BaseModel.save_results` (lines 93–112) records

    "objective": self.model.objVal if self.model.status == GRB.OPTIMAL else None

Gurobi status codes: `GRB.OPTIMAL = 2`, `GRB.INFEASIBLE = 3`,
`GRB.TIME_LIMIT = 9`.  `zX`/`objVal` stand for the incumbent objective value
held by the solver (defined whenever a feasible solution was found, also on
time-limit termination). -/

/-- The fairness-gap value recorded by the analysis script for a solve that
ended with solver status `status` while the solver holds incumbent objective
`zX`. -/
def analysis_fairness_gap (status zX : Int) : Int :=
  if status = 2 then zX else -1

/-- The `solution_found` flag recorded by the analysis script. -/
def analysis_solution_found (status : Int) : Bool :=
  status == 2

/-- The `objective` field recorded by `BaseModel.save_results`. -/
def save_results_objective (status objVal : Int) : Option Int :=
  if status = 2 then some objVal else none

/-- Claim C9 counterexample: a solve that terminates at the time limit
(status 9) with a feasible incumbent of value 5 is recorded with the numeric
placeholder `-1` (and objective `None`), not the incumbent's value. -/
theorem timeout_placeholder_cex :
    analysis_fairness_gap 9 5 = -1 ∧ analysis_fairness_gap 9 5 ≠ 5
    ∧ save_results_objective 9 5 = none
    ∧ analysis_solution_found 9 = false := by
  refine ⟨?_, ?_, ?_, ?_⟩ <;> decide

/-- Claim C9 (amended): the recorded result carries the raw solver status,
but the objective/fairness-gap field carries the incumbent's value only on
optimal termination (status 2); on every non-optimal status — including
time-limit termination with a feasible incumbent — the recorded
fairness-gap is the placeholder `-1` and the recorded objective is `None`. -/
theorem nonoptimal_records_placeholder (s v w : Int) (hs : s ≠ 2) :
    analysis_fairness_gap s v = -1
    ∧ save_results_objective s w = none
    ∧ analysis_solution_found s = false
    ∧ analysis_fairness_gap 2 v = v
    ∧ save_results_objective 2 w = some w := by
  refine ⟨?_, ?_, ?_, ?_, ?_⟩
  · exact if_neg hs
  · exact if_neg hs
  · simpa [analysis_solution_found] using hs
  · exact if_pos rfl
  · exact if_pos rfl

/-- Witness for the amended claim C9 at the time-limit status. -/
theorem nonoptimal_records_placeholder_witness :
    analysis_fairness_gap 9 5 = -1
    ∧ save_results_objective 9 5 = none
    ∧ analysis_solution_found 9 = false
    ∧ analysis_fairness_gap 2 5 = 5
    ∧ save_results_objective 2 5 = some 5 :=
  nonoptimal_records_placeholder 9 5 5 (by decide)

end AmbulanceAllocation
